import Mathlib

/-!
Verification of the USPS round-robin scheduler repository (CS415).

The definitions below are shallow embeddings of the C sources:
  - src/project1/uspsv3.c and src/project1/uspsv4.c (the scheduler),
  - src/adts/arrayqueue.c (the ReadyQueue implementation).
Machine integers are modelled as Nat/Int (all quantities involved are
small and non-negative where Nat is used); fallible paths return Except;
the OS environment (which commands exit during their quantum, when the
signal handlers fire) is passed in explicitly as data.
-/

/-! ## Configuration resolution (uspsv3.c / uspsv4.c, main lines 49-74)

`QUANT_SECONDS` starts at -1; a `-q` option overwrites it with the parsed
value; if the environment variable `USPS_QUANTUM_MSEC` is present it is
used only when the current value is still negative; a missing environment
variable with a still-negative value, or a final negative value, is a
fatal error (`return EXIT_FAILURE`). -/

def resolveQuantum (override env : Option Int) : Except String Int :=
  let q0 : Int := override.getD (-1)
  match env with
  | some e =>
      let q1 : Int := if q0 < 0 then e else q0
      if q1 < 0 then Except.error "Error: No quantum given"
      else Except.ok q1
  | none =>
      if q0 < 0 then Except.error "Error: No environment variable set or passed"
      else if q0 < 0 then Except.error "Error: No quantum given"
      else Except.ok q0

/-- Whether an `Except` result is the fatal-error path (non-zero exit status). -/
def isFatal {α : Type} : Except String α → Bool
  | Except.error _ => true
  | Except.ok _ => false

/-- The configuration phase of `main` followed by the launch loop: the fork
loop (uspsv4.c lines 135-174) is reached only after the quantum checks at
lines 49-74 have passed, so an error result carries no launched command. -/
def uspsMain (override env : Option Int) (cmds : List (List String)) :
    Except String (Int × List (List String)) :=
  match resolveQuantum override env with
  | Except.error msg => Except.error msg
  | Except.ok q => Except.ok (q, cmds)

/-! ## Quantum timer setup (uspsv4.c lines 124-127, uspsv3.c lines 120-123)

`timer.it_value.tv_sec = QUANT_SECONDS / 1000; timer.it_value.tv_usec =
QUANT_SECONDS * 1000;` with C integer division (quantum is non-negative
here, so Nat division coincides). Result is `(tv_sec, tv_usec)`. -/

def timerSetup (quantum : Nat) : Nat × Nat :=
  (quantum / 1000, quantum * 1000)

/-- Total duration in microseconds represented by an `itimerval` value pair. -/
def timerMicros (t : Nat × Nat) : Nat :=
  t.1 * 1000000 + t.2

/-! ## The PCB record (struct ChildProcess, uspsv3.c lines 18-23)

`totalCPUTime` is a C `float`, but every value ever added to it is an
`int` (`QUANT_SECONDS/1000`), starting from 0, so it only ever holds
small exact integers; it is embedded as Nat. -/

structure ChildProcess where
  pid : Nat
  totalCPUTime : Nat
  childIsRunning : Bool
  finished : Bool
deriving DecidableEq, Repr

/-- The preemption update of uspsv3.c line 188-189: `kill(child->pid,
SIGSTOP); child->totalCPUTime += QUANT_SECONDS/1000;` — note the integer
division by 1000. -/
def preemptChildV3 (quantum : Nat) (child : ChildProcess) : ChildProcess :=
  { child with totalCPUTime := child.totalCPUTime + quantum / 1000 }

/-- uspsv3.c lines 184-196: after the wait loop, `waitpid(child->pid,
&status, WNOHANG)`; if the child has not exited it is stopped, charged,
and re-enqueued at the back; otherwise it is finalized (freed, never
re-enqueued). Returns the resulting ready queue. -/
def reapStepV3 (quantum : Nat) (child : ChildProcess) (exited : Bool)
    (queue : List ChildProcess) : List ChildProcess :=
  if exited then queue
  else queue ++ [preemptChildV3 quantum child]

/-- uspsv4.c lines 270-287: same branch structure, but the preemption path
performs no `totalCPUTime` update at all — the PCB is re-enqueued unchanged. -/
def reapStepV4 (child : ChildProcess) (exited : Bool)
    (queue : List ChildProcess) : List ChildProcess :=
  if exited then queue
  else queue ++ [child]

/-! ## The quantum wait loop (uspsv3.c lines 180-182)

`while (childRunning && timeLeft) { sleep(1); }` — the scheduler polls the
two volatile flags once per second. A schedule `s` lists the successive
values of `childRunning && timeLeft` observed at each check; the loop
sleeps once per observed `true` and exits at the first `false`. -/

def pollSleeps : List Bool → Nat
  | [] => 0
  | b :: rest => if b then pollSleeps rest + 1 else 0

/-- Number of times the loop condition is checked (one final check observes
the cleared flag). -/
def pollChecks (s : List Bool) : Nat := pollSleeps s + 1

/-- The two volatile flags shared with the signal handlers
(uspsv3.c lines 26-27). -/
structure SchedFlags where
  childRunning : Bool
  timeLeft : Bool
deriving DecidableEq, Repr

/-- Effect of `alarm_handler` (uspsv3.c lines 210-213) on the flags:
`timeLeft = false`. -/
def alarm_handler (f : SchedFlags) : SchedFlags :=
  { f with timeLeft := false }

/-- Effect of `sigchld_handler` (uspsv3.c lines 215-226) on the flags when
the running child exited: `childRunning = false`. -/
def sigchldClear (f : SchedFlags) : SchedFlags :=
  { f with childRunning := false }

/-- The wait-loop condition `childRunning && timeLeft`. -/
def waitCond (f : SchedFlags) : Bool := f.childRunning && f.timeLeft

/-! ## The ReadyQueue: array-based FIFO queue (src/adts/arrayqueue.c)

The C `QData` struct (lines 39-46): `count`, `size`, `in`, `out` and the
circular `buffer`. Buffer cells are `Option V`: `none` marks a cell that
`malloc` returned uninitialized; `q_insert` writes `some e`. The C field
`in` is a Lean keyword and is embedded as `inIdx`. `malloc` is modelled as
succeeding (its failure path only makes `q_enqueue` report `false`). -/

structure QData (V : Type) where
  count : Nat
  size : Nat
  inIdx : Nat
  out : Nat
  buffer : List (Option V)
deriving DecidableEq, Repr

/-- The default capacity lives in the header ADTs/arrayqueue.h, which is not
under src/. Modelled from the spec: the spec only requires a positive
initial capacity ("no compile-time cap" refers to growth, not creation), so
any positive constant works; no theorem below depends on this value. -/
def DEFAULT_QUEUE_CAPACITY : Nat := 50

/-- `newQueue` (arrayqueue.c lines 185-217): a fresh queue with
`count = in = out = 0` and an uninitialized buffer of `cap` cells, where a
non-positive requested capacity falls back to the default. -/
def newQueue (V : Type) (capacity : Nat) : QData V :=
  let cap := if capacity = 0 then DEFAULT_QUEUE_CAPACITY else capacity
  ⟨0, cap, 0, 0, List.replicate cap none⟩

/-- `ArrayQueue` (arrayqueue.c lines 225-227). -/
def ArrayQueue (V : Type) (capacity : Nat) : QData V :=
  newQueue V capacity

/-- The reallocation branch of `q_enqueue` (arrayqueue.c lines 76-94):
copy the `count` live elements in circular order from `out` into the front
of a buffer of twice the size, then reset `out = 0`, `in = count`. -/
def reallocQ {V : Type} (qd : QData V) : QData V :=
  let copied := (List.range qd.count).map
    (fun j => qd.buffer.getD ((qd.out + j) % qd.size) none)
  { qd with
      buffer := copied ++ List.replicate (2 * qd.size - qd.count) none,
      size := 2 * qd.size,
      out := 0,
      inIdx := qd.count }

/-- The insertion step of `q_enqueue` (arrayqueue.c lines 95-100):
`buffer[in] = element; in = (in + 1) % size; count++`. -/
def q_insert {V : Type} (qd : QData V) (element : V) : QData V :=
  { qd with
      buffer := qd.buffer.set qd.inIdx (some element),
      inIdx := (qd.inIdx + 1) % qd.size,
      count := qd.count + 1 }

/-- `q_enqueue` (arrayqueue.c lines 72-102): grows the buffer when full,
then inserts; returns the C status boolean (true whenever `malloc`
succeeds, which is how allocation is modelled). -/
def q_enqueue {V : Type} (qd : QData V) (element : V) : Bool × QData V :=
  (true, q_insert (if qd.count < qd.size then qd else reallocQ qd) element)

/-- `q_dequeue` (arrayqueue.c lines 113-124). The third component models
the out-parameter: `some e` when `*element = buffer[out]` was written,
`none` when the call returned `false` without touching it. -/
def q_dequeue {V : Type} (qd : QData V) : Bool × QData V × Option V :=
  if 0 < qd.count then
    (true,
     { qd with out := (qd.out + 1) % qd.size, count := qd.count - 1 },
     qd.buffer.getD qd.out none)
  else (false, qd, none)

/-- `q_front` (arrayqueue.c lines 104-111): same out-parameter convention,
queue never modified. -/
def q_front {V : Type} (qd : QData V) : Bool × Option V :=
  if 0 < qd.count then (true, qd.buffer.getD qd.out none)
  else (false, none)

/-- `q_isEmpty` (arrayqueue.c lines 131-134). -/
def q_isEmpty {V : Type} (qd : QData V) : Bool := qd.count == 0

/-- Abstraction function: the live contents of the circular buffer, front
first — `buffer[(out + j) % size]` for `j < count`. -/
def QData.toList {V : Type} (qd : QData V) : List (Option V) :=
  (List.range qd.count).map
    (fun j => qd.buffer.getD ((qd.out + j) % qd.size) none)

/-- Representation invariant of the C struct: positive size, buffer of
exactly `size` cells, at most `size` live elements, indices in range, and
`in` positioned `count` slots past `out` (circularly). -/
def QDataWF {V : Type} (qd : QData V) : Prop :=
  0 < qd.size ∧ qd.buffer.length = qd.size ∧ qd.count ≤ qd.size ∧
  qd.out < qd.size ∧ qd.inIdx = (qd.out + qd.count) % qd.size

instance {V : Type} (qd : QData V) : Decidable (QDataWF qd) := by
  unfold QDataWF; infer_instance

/-! ### Circular-index arithmetic and simulation lemmas for the queue -/

lemma modIdx_ne {size out j count : Nat} (hj : j < count) (hc : count < size) :
    (out + j) % size ≠ (out + count) % size := by
  intro h
  have h1 : out + j ≡ out + count [MOD size] := h
  have h2 : j ≡ count [MOD size] := Nat.ModEq.add_left_cancel' out h1
  have h3 : j % size = count % size := h2
  rw [Nat.mod_eq_of_lt (hj.trans hc), Nat.mod_eq_of_lt hc] at h3
  omega

lemma toList_length {V : Type} (qd : QData V) : qd.toList.length = qd.count := by
  simp [QData.toList]

lemma q_insert_spec {V : Type} (qd : QData V) (e : V) (h : QDataWF qd)
    (hlt : qd.count < qd.size) :
    QDataWF (q_insert qd e) ∧
    (q_insert qd e).toList = qd.toList ++ [some e] := by
  obtain ⟨hsz, hlen, hcnt, hout, hin⟩ := h
  constructor
  · unfold QDataWF q_insert
    refine ⟨hsz, ?_, ?_, hout, ?_⟩
    · simpa using hlen
    · simpa using hlt
    · simp only
      rw [hin, Nat.mod_add_mod]
      have harith : qd.out + qd.count + 1 = qd.out + (qd.count + 1) := by omega
      rw [harith]
  · simp only [q_insert, QData.toList]
    rw [List.range_succ, List.map_append]
    congr 1
    · apply List.map_congr_left
      intro j hj
      have hjlt : j < qd.count := List.mem_range.mp hj
      have hne : qd.inIdx ≠ (qd.out + j) % qd.size := by
        rw [hin]
        exact (modIdx_ne hjlt hlt).symm
      simp [List.getD_eq_getElem?_getD, List.getElem?_set_ne hne]
    · simp only [List.map_cons, List.map_nil]
      rw [← hin]
      have hidx : qd.inIdx < qd.buffer.length := by
        rw [hlen, hin]
        exact Nat.mod_lt _ hsz
      simp [List.getD_eq_getElem?_getD, List.getElem?_set_self, hidx]

lemma reallocQ_spec {V : Type} (qd : QData V) (h : QDataWF qd)
    (heq : qd.count = qd.size) :
    QDataWF (reallocQ qd) ∧ (reallocQ qd).toList = QData.toList qd ∧
    (reallocQ qd).count < (reallocQ qd).size := by
  obtain ⟨hsz, hlen, hcnt, hout, hin⟩ := h
  refine ⟨⟨?_, ?_, ?_, ?_, ?_⟩, ?_, ?_⟩
  · show 0 < 2 * qd.size
    omega
  · show _ = 2 * qd.size
    simp only [reallocQ, List.length_append, List.length_map, List.length_range,
      List.length_replicate]
    omega
  · show qd.count ≤ 2 * qd.size
    omega
  · show (0 : Nat) < 2 * qd.size
    omega
  · show qd.count = (0 + qd.count) % (2 * qd.size)
    rw [Nat.zero_add, Nat.mod_eq_of_lt (by omega)]
  · simp only [reallocQ, QData.toList]
    apply List.map_congr_left
    intro j hj
    have hjlt : j < qd.count := List.mem_range.mp hj
    rw [Nat.zero_add, Nat.mod_eq_of_lt (by omega)]
    rw [List.getD_eq_getElem?_getD, List.getD_eq_getElem?_getD,
      List.getElem?_append_left (by simpa using hjlt)]
    simp [List.getElem?_map, List.getElem?_range hjlt]
  · show qd.count < 2 * qd.size
    omega

lemma q_enqueue_spec {V : Type} (qd : QData V) (e : V) (h : QDataWF qd) :
    (q_enqueue qd e).1 = true ∧ QDataWF (q_enqueue qd e).2 ∧
    (q_enqueue qd e).2.toList = QData.toList qd ++ [some e] := by
  by_cases hlt : qd.count < qd.size
  · have hi := q_insert_spec qd e h hlt
    have h2 : (q_enqueue qd e).2 = q_insert qd e := by
      simp [q_enqueue, hlt]
    exact ⟨rfl, h2 ▸ hi.1, by rw [h2, hi.2]⟩
  · have heq : qd.count = qd.size := le_antisymm h.2.2.1 (not_lt.mp hlt)
    have hr := reallocQ_spec qd h heq
    have hi := q_insert_spec (reallocQ qd) e hr.1 hr.2.2
    have h2 : (q_enqueue qd e).2 = q_insert (reallocQ qd) e := by
      simp [q_enqueue, hlt]
    exact ⟨rfl, h2 ▸ hi.1, by rw [h2, hi.2, hr.2.1]⟩

lemma q_dequeue_spec {V : Type} (qd : QData V) (h : QDataWF qd)
    (hpos : 0 < qd.count) :
    (q_dequeue qd).1 = true ∧
    QDataWF (q_dequeue qd).2.1 ∧
    QData.toList qd = (q_dequeue qd).2.2 :: (q_dequeue qd).2.1.toList := by
  obtain ⟨hsz, hlen, hcnt, hout, hin⟩ := h
  have hq : q_dequeue qd =
      (true,
       { qd with out := (qd.out + 1) % qd.size, count := qd.count - 1 },
       qd.buffer.getD qd.out none) := by
    simp [q_dequeue, hpos]
  rw [hq]
  refine ⟨rfl, ⟨hsz, hlen, ?_, ?_, ?_⟩, ?_⟩
  · exact le_trans (Nat.sub_le _ _) hcnt
  · exact Nat.mod_lt _ hsz
  · show qd.inIdx = ((qd.out + 1) % qd.size + (qd.count - 1)) % qd.size
    rw [Nat.mod_add_mod, hin]
    congr 1
    omega
  · obtain ⟨c, hc⟩ : ∃ c, qd.count = c + 1 := ⟨qd.count - 1, by omega⟩
    simp only [QData.toList, hc]
    rw [List.range_succ_eq_map]
    simp only [List.map_cons, List.map_map, Nat.add_sub_cancel]
    congr 1
    · simp [Nat.mod_eq_of_lt hout]
    · apply List.map_congr_left
      intro j hj
      simp only [Function.comp]
      rw [Nat.mod_add_mod]
      have harith : qd.out + 1 + j = qd.out + Nat.succ j := by omega
      rw [harith]

/-! ### Operation sequences: the C queue against the ideal unbounded FIFO -/

/-- A client operation on the queue. -/
inductive QOp (V : Type) where
  | enq (v : V)
  | deq
deriving DecidableEq, Repr

/-- Run a sequence of operations against the C implementation. Results:
final state, the list of `q_enqueue` status booleans, and the list of
values written through `q_dequeue`'s out-parameter (`none` when the call
returned `false` and wrote nothing). -/
def runImpl {V : Type} : QData V → List (QOp V) → QData V × List Bool × List (Option V)
  | qd, [] => (qd, [], [])
  | qd, QOp.enq v :: ops =>
      let r := q_enqueue qd v
      let rest := runImpl r.2 ops
      (rest.1, r.1 :: rest.2.1, rest.2.2)
  | qd, QOp.deq :: ops =>
      let r := q_dequeue qd
      let rest := runImpl r.2.1 ops
      (rest.1, rest.2.1, r.2.2 :: rest.2.2)

/-- Modelled from the spec ("ReadyQueue: ordered sequence of PCBs, FIFO;
`enqueue` appends to the back; `dequeue` removes and returns the front",
with no capacity bound): the ideal unbounded FIFO as a plain list, run
over the same operation sequence. -/
def runSpec {V : Type} : List V → List (QOp V) → List V × List (Option V)
  | xs, [] => (xs, [])
  | xs, QOp.enq v :: ops => runSpec (xs ++ [v]) ops
  | xs, QOp.deq :: ops =>
      match xs with
      | [] =>
          let r := runSpec ([] : List V) ops
          (r.1, none :: r.2)
      | x :: rest =>
          let r := runSpec rest ops
          (r.1, some x :: r.2)

lemma runImpl_sim {V : Type} :
    ∀ (ops : List (QOp V)) (qd : QData V) (xs : List V),
    QDataWF qd → qd.toList = xs.map some →
    QDataWF (runImpl qd ops).1 ∧
    (runImpl qd ops).1.toList = ((runSpec xs ops).1).map some ∧
    (runImpl qd ops).2.2 = (runSpec xs ops).2 ∧
    (runImpl qd ops).2.1.all (fun b => b) = true := by
  intro ops
  induction ops with
  | nil => intro qd xs h habs; exact ⟨h, by simpa using habs, rfl, rfl⟩
  | cons op ops ih =>
    intro qd xs h habs
    cases op with
    | enq v =>
      have he := q_enqueue_spec qd v h
      have habs2 : (q_enqueue qd v).2.toList = (xs ++ [v]).map some := by
        rw [he.2.2, habs, List.map_append, List.map_singleton]
      have hr := ih (q_enqueue qd v).2 (xs ++ [v]) he.2.1 habs2
      refine ⟨hr.1, hr.2.1, hr.2.2.1, ?_⟩
      simp only [runImpl, List.all_cons, he.1, Bool.true_and]
      exact hr.2.2.2
    | deq =>
      cases xs with
      | nil =>
        have hc : qd.count = 0 := by
          have := toList_length qd
          rw [habs] at this
          simpa using this.symm
        have hq : q_dequeue qd = (false, qd, none) := by
          simp [q_dequeue, hc]
        have hr := ih qd [] h habs
        simp only [runImpl, runSpec, hq]
        exact ⟨hr.1, hr.2.1, by rw [hr.2.2.1], hr.2.2.2⟩
      | cons x rest =>
        have hpos : 0 < qd.count := by
          have := toList_length qd
          rw [habs] at this
          simp at this
          omega
        have hd := q_dequeue_spec qd h hpos
        have hcons : (some x : Option V) :: rest.map some
            = (q_dequeue qd).2.2 :: (q_dequeue qd).2.1.toList := by
          rw [← hd.2.2, habs, List.map_cons]
        have hx : (q_dequeue qd).2.2 = some x := by
          injection hcons with h1 h2
          exact h1.symm
        have habs2 : (q_dequeue qd).2.1.toList = rest.map some := by
          injection hcons with h1 h2
          exact h2.symm
        have hr := ih (q_dequeue qd).2.1 rest hd.2.1 habs2
        simp only [runImpl, runSpec]
        exact ⟨hr.1, hr.2.1, by rw [hx, hr.2.2.1], hr.2.2.2⟩

lemma arrayQueueWF (V : Type) (capacity : Nat) :
    QDataWF (ArrayQueue V capacity) ∧ (ArrayQueue V capacity).toList = [] := by
  constructor
  · unfold QDataWF ArrayQueue newQueue
    by_cases hc : capacity = 0
    · simp [hc, DEFAULT_QUEUE_CAPACITY]
    · simp [hc]
      omega
  · simp [QData.toList, ArrayQueue, newQueue]

/-- Claim C3: the ArrayQueue is an unbounded FIFO — over every sequence of
enqueue/dequeue operations started from a fresh `ArrayQueue` of any
requested capacity, the implementation's live contents always equal the
ideal unbounded FIFO list (so each dequeue returns the earliest enqueued
element still present, enqueue appends to the back, and order is preserved
across the growth reallocation), every dequeue output matches the ideal
queue's, and every enqueue reports success (no compile-time cap). -/
theorem arrayqueue_unbounded_fifo (V : Type) (capacity : Nat)
    (ops : List (QOp V)) :
    QData.toList (runImpl (ArrayQueue V capacity) ops).1
      = ((runSpec [] ops).1).map some ∧
    (runImpl (ArrayQueue V capacity) ops).2.2 = (runSpec [] ops).2 ∧
    (runImpl (ArrayQueue V capacity) ops).2.1.all (fun b => b) = true := by
  have h0 := arrayQueueWF V capacity
  have h := runImpl_sim ops (ArrayQueue V capacity) [] h0.1 (by simp [h0.2])
  exact ⟨h.2.1, h.2.2.1, h.2.2.2⟩

example :
    (runImpl (ArrayQueue Nat 2)
      [QOp.enq 1, QOp.enq 2, QOp.enq 3, QOp.deq, QOp.deq, QOp.deq]).2.2
      = [some 1, some 2, some 3] := by decide

/-- Claim C10: on an empty queue (`count = 0`), `q_dequeue` and `q_front`
return `false`, leave every field of the queue untouched, and write
nothing through the out-parameter. -/
theorem arrayqueue_empty_unchanged (V : Type) (qd : QData V)
    (h : qd.count = 0) :
    q_dequeue qd = (false, qd, none) ∧ q_front qd = (false, none) := by
  constructor <;> simp [q_dequeue, q_front, h]

/-- Witness for C10 at a concrete empty queue. -/
theorem arrayqueue_empty_unchanged_witness :
    q_dequeue (ArrayQueue Nat 4) = (false, ArrayQueue Nat 4, none) ∧
    q_front (ArrayQueue Nat 4) = (false, none) :=
  arrayqueue_empty_unchanged Nat (ArrayQueue Nat 4) rfl

/-! ## The dispatch loop as an event trace (uspsv3.c lines 170-196,
uspsv4.c lines 189-287)

Queue state: one `(pid, quantaNeeded)` pair per PCB, where `quantaNeeded`
is the environment's answer to "how many quanta until this process
exits?" (the voluntary-exit behavior of the launched command). Each loop
iteration dequeues the front PCB (`dispatch`), and after the quantum
either `waitpid` reports it exited and it is finalized, or it is stopped
and re-enqueued at the back (`requeue`), exactly the two branches of the
C loop. The recursion is fueled by the total number of remaining quanta
so that every definition stays structurally recursive and computable. -/

inductive Ev where
  | dispatch (p : Nat)
  | requeue (p : Nat)
  | finalize (p : Nat)
deriving DecidableEq, Repr

/-- Fuel bound: total remaining quanta plus queue length. -/
def needSum (q : List (Nat × Nat)) : Nat :=
  (q.map (fun c => c.2 + 1)).sum

/-- Fueled dispatch loop; with fuel at least `needSum q` the fuel never
runs out (proved below). -/
def schedRunF : Nat → List (Nat × Nat) → List Ev
  | _, [] => []
  | 0, _ :: _ => []
  | fuel + 1, (p, n) :: rest =>
      if n ≤ 1 then Ev.dispatch p :: Ev.finalize p :: schedRunF fuel rest
      else Ev.dispatch p :: Ev.requeue p :: schedRunF fuel (rest ++ [(p, n - 1)])

/-- The full event trace of the dispatch loop from queue `q`. -/
def schedRun (q : List (Nat × Nat)) : List Ev := schedRunF (needSum q) q

lemma schedRunF_nil (fuel : Nat) : schedRunF fuel [] = [] := by
  cases fuel <;> rfl

lemma needSum_nil : needSum ([] : List (Nat × Nat)) = 0 := rfl

lemma needSum_cons (p n : Nat) (rest : List (Nat × Nat)) :
    needSum ((p, n) :: rest) = n + 1 + needSum rest := by
  simp [needSum]

lemma needSum_append (a b : List (Nat × Nat)) :
    needSum (a ++ b) = needSum a + needSum b := by
  simp [needSum]

lemma schedRunF_congr : ∀ (f1 f2 : Nat) (q : List (Nat × Nat)),
    needSum q ≤ f1 → needSum q ≤ f2 → schedRunF f1 q = schedRunF f2 q := by
  intro f1
  induction f1 with
  | zero =>
    intro f2 q h1 h2
    cases q with
    | nil => simp [schedRunF_nil]
    | cons c rest =>
      obtain ⟨p, n⟩ := c
      rw [needSum_cons] at h1
      omega
  | succ f1 ih =>
    intro f2 q h1 h2
    cases q with
    | nil => simp [schedRunF_nil]
    | cons c rest =>
      obtain ⟨p, n⟩ := c
      rw [needSum_cons] at h1 h2
      cases f2 with
      | zero => omega
      | succ f2 =>
        simp only [schedRunF]
        by_cases hn : n ≤ 1
        · rw [if_pos hn, if_pos hn, ih f2 rest (by omega) (by omega)]
        · have hq : needSum (rest ++ [(p, n - 1)]) = needSum rest + n := by
            rw [needSum_append, needSum_cons, needSum_nil]
            omega
          rw [if_neg hn, if_neg hn,
            ih f2 (rest ++ [(p, n - 1)]) (by omega) (by omega)]

/-- One-step unfolding of the dispatch-loop trace. -/
lemma schedRun_cons (p n : Nat) (rest : List (Nat × Nat)) :
    schedRun ((p, n) :: rest) =
      if n ≤ 1 then Ev.dispatch p :: Ev.finalize p :: schedRun rest
      else Ev.dispatch p :: Ev.requeue p :: schedRun (rest ++ [(p, n - 1)]) := by
  unfold schedRun
  rw [needSum_cons]
  have harith : n + 1 + needSum rest = (n + needSum rest) + 1 := by omega
  rw [harith]
  simp only [schedRunF]
  by_cases hn : n ≤ 1
  · rw [if_pos hn, if_pos hn,
      schedRunF_congr (n + needSum rest) (needSum rest) rest (by omega) le_rfl]
  · have hq : needSum (rest ++ [(p, n - 1)]) = needSum rest + n := by
      rw [needSum_append, needSum_cons, needSum_nil]
      omega
    rw [if_neg hn, if_neg hn,
      schedRunF_congr (n + needSum rest) (needSum (rest ++ [(p, n - 1)]))
        (rest ++ [(p, n - 1)]) (by omega) le_rfl]

/-- The pids granted quanta, in dispatch order. -/
def dispatchTrace (q : List (Nat × Nat)) : List Nat :=
  (schedRun q).filterMap (fun e => match e with
    | Ev.dispatch p => some p
    | Ev.requeue _ => none
    | Ev.finalize _ => none)

lemma dispatchTrace_cons (p n : Nat) (rest : List (Nat × Nat)) :
    dispatchTrace ((p, n) :: rest) =
      if n ≤ 1 then p :: dispatchTrace rest
      else p :: dispatchTrace (rest ++ [(p, n - 1)]) := by
  unfold dispatchTrace
  rw [schedRun_cons]
  by_cases hn : n ≤ 1
  · rw [if_pos hn, if_pos hn]
    simp [List.filterMap_cons]
  · rw [if_neg hn, if_neg hn]
    simp [List.filterMap_cons]

lemma dispatchTrace_take : ∀ (q extra : List (Nat × Nat)),
    (dispatchTrace (q ++ extra)).take q.length = q.map Prod.fst := by
  intro q
  induction q with
  | nil => intro extra; simp
  | cons c rest ih =>
    intro extra
    obtain ⟨p, n⟩ := c
    rw [List.cons_append, dispatchTrace_cons]
    by_cases hn : n ≤ 1
    · rw [if_pos hn]
      simp only [List.length_cons, List.take_succ_cons, List.map_cons]
      rw [ih extra]
    · rw [if_neg hn]
      simp only [List.length_cons, List.take_succ_cons, List.map_cons]
      rw [List.append_assoc]
      rw [ih (extra ++ [(p, n - 1)])]

/-- Claim C6: round-robin fairness. From any queue state, the next
`q.length` dispatches are exactly the queued PCBs in FIFO order, so no
process receives a second quantum before every other still-unfinished
process of the current round has received one; concretely, two processes
that each need three quanta are dispatched A,B,A,B,A,B. -/
theorem round_robin_fairness (q : List (Nat × Nat)) :
    (dispatchTrace q).take q.length = q.map Prod.fst ∧
    dispatchTrace [(0, 3), (1, 3)] = [0, 1, 0, 1, 0, 1] := by
  constructor
  · have h := dispatchTrace_take q []
    simpa using h
  · rfl

/-! ### Per-PCB event histories -/

/-- Whether an event concerns pid `p`. -/
def touches (p : Nat) : Ev → Bool
  | Ev.dispatch x => x == p
  | Ev.requeue x => x == p
  | Ev.finalize x => x == p

/-- The event history of one PCB that needs `n` quanta: dispatched and
requeued `n - 1` times, then dispatched and finalized. -/
def pLife (p : Nat) : Nat → List Ev
  | 0 => [Ev.dispatch p, Ev.finalize p]
  | 1 => [Ev.dispatch p, Ev.finalize p]
  | n + 2 => Ev.dispatch p :: Ev.requeue p :: pLife p (n + 1)

/-- POSIX semantics of `waitpid(pid, &status, WNOHANG)` for a specific
pid, as called at uspsv4.c line 271 / uspsv3.c line 185: it reports and
consumes the status of `target` alone; zombies of other processes are
left untouched. -/
def waitpidSpecific (zombies : List Nat) (target : Nat) :
    Option Nat × List Nat :=
  if target ∈ zombies then (some target, zombies.erase target)
  else (none, zombies)

lemma pLife_le_one (p n : Nat) (hn : n ≤ 1) :
    pLife p n = [Ev.dispatch p, Ev.finalize p] := by
  match n with
  | 0 => rfl
  | 1 => rfl

lemma pLife_ge_two (p n : Nat) (hn : 2 ≤ n) :
    pLife p n = Ev.dispatch p :: Ev.requeue p :: pLife p (n - 1) := by
  match n with
  | m + 2 => rfl

lemma pLife_count_finalize (p : Nat) :
    ∀ n, (pLife p n).count (Ev.finalize p) = 1
  | 0 => by simp [pLife]
  | 1 => by simp [pLife]
  | n + 2 => by
    have ih := pLife_count_finalize p (n + 1)
    simp [pLife, List.count_cons, ih]

lemma pLife_getLast (p : Nat) :
    ∀ n, (pLife p n).getLast? = some (Ev.finalize p)
  | 0 => by simp [pLife]
  | 1 => by simp [pLife]
  | n + 2 => by
    have ih := pLife_getLast p (n + 1)
    have hcons : pLife p (n + 2)
        = Ev.dispatch p :: Ev.requeue p :: pLife p (n + 1) := rfl
    rw [hcons, List.getLast?_cons_cons]
    cases hn1 : pLife p (n + 1) with
    | nil => rw [hn1] at ih; simp at ih
    | cons a l =>
      rw [hn1] at ih
      rw [List.getLast?_cons_cons]
      exact ih

lemma touches_self_dispatch (p : Nat) : touches p (Ev.dispatch p) = true := by
  simp [touches]

lemma filter_schedRun_not_mem :
    ∀ (fuel : Nat) (q : List (Nat × Nat)) (p : Nat), needSum q ≤ fuel →
    p ∉ q.map Prod.fst → (schedRun q).filter (touches p) = [] := by
  intro fuel
  induction fuel with
  | zero =>
    intro q p h hmem
    cases q with
    | nil => rfl
    | cons c rest =>
      obtain ⟨a, m⟩ := c
      rw [needSum_cons] at h
      omega
  | succ fuel ih =>
    intro q p h hmem
    cases q with
    | nil => rfl
    | cons c rest =>
      obtain ⟨a, m⟩ := c
      rw [needSum_cons] at h
      simp only [List.map_cons, List.mem_cons, not_or] at hmem
      obtain ⟨hap, hrest⟩ := hmem
      have hap2 : a ≠ p := fun hh => hap hh.symm
      have h1 : touches p (Ev.dispatch a) = false := by simp [touches, hap2]
      have h2 : touches p (Ev.finalize a) = false := by simp [touches, hap2]
      have h3 : touches p (Ev.requeue a) = false := by simp [touches, hap2]
      rw [schedRun_cons]
      by_cases hm : m ≤ 1
      · rw [if_pos hm]
        simp only [List.filter_cons, h1, h2, Bool.false_eq_true, if_false]
        exact ih rest p (by omega) hrest
      · rw [if_neg hm]
        simp only [List.filter_cons, h1, h3, Bool.false_eq_true, if_false]
        have hm2 : p ∉ (rest ++ [(a, m - 1)]).map Prod.fst := by
          simp only [List.map_append, List.map_cons, List.map_nil,
            List.mem_append, List.mem_cons, List.not_mem_nil, or_false, not_or]
          exact ⟨hrest, hap⟩
        exact ih (rest ++ [(a, m - 1)]) p
          (by rw [needSum_append, needSum_cons, needSum_nil]; omega) hm2

lemma filter_schedRun_mem :
    ∀ (fuel : Nat) (q : List (Nat × Nat)) (p n : Nat), needSum q ≤ fuel →
    (q.map Prod.fst).Nodup → (p, n) ∈ q →
    (schedRun q).filter (touches p) = pLife p n := by
  intro fuel
  induction fuel with
  | zero =>
    intro q p n h hnd hmem
    cases q with
    | nil => simp at hmem
    | cons c rest =>
      obtain ⟨a, m⟩ := c
      rw [needSum_cons] at h
      omega
  | succ fuel ih =>
    intro q p n h hnd hmem
    cases q with
    | nil => simp at hmem
    | cons c rest =>
      obtain ⟨a, m⟩ := c
      rw [needSum_cons] at h
      simp only [List.map_cons, List.nodup_cons] at hnd
      obtain ⟨hhead, hndrest⟩ := hnd
      rw [schedRun_cons]
      by_cases hap : a = p
      · subst hap
        have hnm : n = m := by
          rcases List.mem_cons.mp hmem with heq | hmemrest
          · exact (Prod.mk.injEq _ _ _ _ ▸ heq).2
          · exact absurd (List.mem_map_of_mem Prod.fst hmemrest) hhead
        subst hnm
        have h1 : touches a (Ev.dispatch a) = true := by simp [touches]
        have h2 : touches a (Ev.finalize a) = true := by simp [touches]
        have h3 : touches a (Ev.requeue a) = true := by simp [touches]
        by_cases hm : n ≤ 1
        · rw [if_pos hm]
          simp only [List.filter_cons, h1, h2, if_true]
          rw [filter_schedRun_not_mem (needSum rest) rest a le_rfl hhead,
            pLife_le_one a n hm]
        · rw [if_neg hm]
          simp only [List.filter_cons, h1, h3, if_true]
          have hnd2 : ((rest ++ [(a, n - 1)]).map Prod.fst).Nodup := by
            simp only [List.map_append, List.map_cons, List.map_nil]
            rw [List.nodup_append]
            refine ⟨hndrest, List.nodup_singleton a, ?_⟩
            intro x hx hx2
            simp only [List.mem_cons, List.not_mem_nil, or_false] at hx2
            subst hx2
            exact hhead hx
          have hmem2 : (a, n - 1) ∈ rest ++ [(a, n - 1)] := by simp
          rw [ih (rest ++ [(a, n - 1)]) a (n - 1)
            (by rw [needSum_append, needSum_cons, needSum_nil]; omega)
            hnd2 hmem2]
          rw [pLife_ge_two a n (by omega)]
      · have hmemrest : (p, n) ∈ rest := by
          rcases List.mem_cons.mp hmem with heq | hmemrest
          · exact absurd ((Prod.mk.injEq _ _ _ _ ▸ heq).1.symm) hap
          · exact hmemrest
        have h1 : touches p (Ev.dispatch a) = false := by simp [touches, hap]
        have h2 : touches p (Ev.finalize a) = false := by simp [touches, hap]
        have h3 : touches p (Ev.requeue a) = false := by simp [touches, hap]
        by_cases hm : m ≤ 1
        · rw [if_pos hm]
          simp only [List.filter_cons, h1, h2, Bool.false_eq_true, if_false]
          exact ih rest p n (by omega) hndrest hmemrest
        · rw [if_neg hm]
          simp only [List.filter_cons, h1, h3, Bool.false_eq_true, if_false]
          have hnd2 : ((rest ++ [(a, m - 1)]).map Prod.fst).Nodup := by
            simp only [List.map_append, List.map_cons, List.map_nil]
            rw [List.nodup_append]
            refine ⟨hndrest, List.nodup_singleton a, ?_⟩
            intro x hx hx2
            simp only [List.mem_cons, List.not_mem_nil, or_false] at hx2
            subst hx2
            exact hhead hx
          exact ih (rest ++ [(a, m - 1)]) p n
            (by rw [needSum_append, needSum_cons, needSum_nil]; omega)
            hnd2 (List.mem_append_left _ hmemrest)

/-- Claim C7: each PCB's event history in the full run consists of its
dispatches/requeues followed by exactly one `finalize` (its status is
obtained exactly once), the `finalize` is its last event (a finalized PCB
is never dispatched or re-enqueued again), and the per-handle
`waitpid(pid, WNOHANG)` check consumes the status of that specific handle
only, leaving every other pending status in place. -/
theorem reap_once_finalized_never_reenqueued (q : List (Nat × Nat))
    (p n : Nat) (zs : List Nat) (t : Nat)
    (hnd : (q.map Prod.fst).Nodup) (hmem : (p, n) ∈ q) :
    (schedRun q).filter (touches p) = pLife p n ∧
    (pLife p n).count (Ev.finalize p) = 1 ∧
    (pLife p n).getLast? = some (Ev.finalize p) ∧
    (waitpidSpecific zs t).2 = zs.erase t ∧
    (waitpidSpecific zs t).1 = (if t ∈ zs then some t else none) := by
  refine ⟨filter_schedRun_mem (needSum q) q p n le_rfl hnd hmem,
    pLife_count_finalize p n, pLife_getLast p n, ?_, ?_⟩
  · unfold waitpidSpecific
    by_cases ht : t ∈ zs
    · rw [if_pos ht]
    · rw [if_neg ht, List.erase_of_not_mem ht]
  · unfold waitpidSpecific
    by_cases ht : t ∈ zs
    · rw [if_pos ht, if_pos ht]
    · rw [if_neg ht, if_neg ht]

/-- Witness for C7: two PCBs, pid 1 needing two quanta and pid 2 needing
one, with a pending-status list `[5, 7]` probed for handle 5. -/
theorem reap_once_finalized_never_reenqueued_witness :
    (schedRun [(1, 2), (2, 1)]).filter (touches 1) = pLife 1 2 ∧
    (pLife 1 2).count (Ev.finalize 1) = 1 ∧
    (pLife 1 2).getLast? = some (Ev.finalize 1) ∧
    (waitpidSpecific [5, 7] 5).2 = [5, 7].erase 5 ∧
    (waitpidSpecific [5, 7] 5).1 = (if 5 ∈ [5, 7] then some 5 else none) :=
  reap_once_finalized_never_reenqueued [(1, 2), (2, 1)] 1 2 [5, 7] 5
    (by decide) (by decide)

/-! ## Signal-level process-state machine (uspsv3.c lines 170-196)

Tracks what the `kill` calls of the dispatch loop do to the children.
Every child is born stopped (`raise(SIGSTOP)` at line 152 before
`execvp`). One loop iteration: dequeue and `kill(pid, SIGCONT)`
(dispatch); during the quantum the child may exit on its own
(`childExit`); after the quantum, `waitpid(pid, WNOHANG)` either finds it
still alive — `kill(pid, SIGSTOP)` and re-enqueue (`preempt`) — or finds
it dead and finalizes it (`finalizeStep`). `cur` is the loop variable
`child` between dequeue and the end of the iteration. -/

inductive CState where
  | stopped
  | running
  | dead
deriving DecidableEq, Repr

structure Sys where
  queue : List Nat
  cur : Option Nat
  cs : List (Nat × CState)
deriving DecidableEq, Repr

/-- Update the recorded state of pid `p` (the effect of a signal on one
child). -/
def setState (cs : List (Nat × CState)) (p : Nat) (st : CState) :
    List (Nat × CState) :=
  cs.map (fun e => if e.1 = p then (p, st) else e)

/-- One transition of the dispatch loop at signal granularity. -/
inductive SchedStep : Sys → Sys → Prop where
  | dispatch (p : Nat) (rest : List Nat) (cs : List (Nat × CState)) :
      SchedStep ⟨p :: rest, none, cs⟩
        ⟨rest, some p, setState cs p CState.running⟩
  | childExit (q : List Nat) (p : Nat) (cs : List (Nat × CState)) :
      cs.lookup p = some CState.running →
      SchedStep ⟨q, some p, cs⟩ ⟨q, some p, setState cs p CState.dead⟩
  | preempt (q : List Nat) (p : Nat) (cs : List (Nat × CState)) :
      cs.lookup p = some CState.running →
      SchedStep ⟨q, some p, cs⟩
        ⟨q ++ [p], none, setState cs p CState.stopped⟩
  | finalizeStep (q : List Nat) (p : Nat) (cs : List (Nat × CState)) :
      cs.lookup p = some CState.dead →
      SchedStep ⟨q, some p, cs⟩ ⟨q, none, cs⟩

/-- State after the launch loop: every forked child has stopped itself and
its PCB sits in the ReadyQueue. -/
def initSys (pids : List Nat) : Sys :=
  ⟨pids, none, pids.map (fun p => (p, CState.stopped))⟩

def SchedReachable (pids : List Nat) (s : Sys) : Prop :=
  Relation.ReflTransGen SchedStep (initSys pids) s

/-- Number of children currently resumed (SIGCONTed and not yet stopped
or dead). -/
def runningCount (s : Sys) : Nat :=
  s.cs.countP (fun e => e.2 == CState.running)

/-- The inductive invariant: child pids are distinct; a pid is in the
ReadyQueue exactly once iff its child is stopped; a running child is the
one held by the loop variable. -/
def SysInv (s : Sys) : Prop :=
  (s.cs.map Prod.fst).Nodup ∧
  (∀ p, s.queue.count p
    = (if s.cs.lookup p = some CState.stopped then 1 else 0)) ∧
  (∀ p, s.cs.lookup p = some CState.running → s.cur = some p)

lemma setState_keys (cs : List (Nat × CState)) (p : Nat) (st : CState) :
    (setState cs p st).map Prod.fst = cs.map Prod.fst := by
  induction cs with
  | nil => rfl
  | cons e rest ih =>
    simp only [setState, List.map_cons] at ih ⊢
    by_cases he : e.1 = p
    · rw [if_pos he]
      simp [ih, he]
    · rw [if_neg he]
      simp [ih]

lemma lookup_setState_self (cs : List (Nat × CState)) (p : Nat) (st : CState) :
    (setState cs p st).lookup p = (cs.lookup p).map (fun _ => st) := by
  induction cs with
  | nil => rfl
  | cons e rest ih =>
    by_cases he : e.1 = p
    · simp only [setState, List.map_cons, if_pos he]
      rw [List.lookup_cons, List.lookup_cons]
      simp [he]
    · simp only [setState, List.map_cons, if_neg he]
      rw [List.lookup_cons, List.lookup_cons]
      have hb : (p == e.1) = false := by
        simp
        exact fun hh => he hh.symm
      simp only [hb]
      exact ih

lemma lookup_setState_ne (cs : List (Nat × CState)) (p x : Nat) (st : CState)
    (hx : x ≠ p) :
    (setState cs p st).lookup x = cs.lookup x := by
  induction cs with
  | nil => rfl
  | cons e rest ih =>
    by_cases he : e.1 = p
    · simp only [setState, List.map_cons, if_pos he]
      rw [List.lookup_cons, List.lookup_cons]
      have hb : (x == p) = false := by simp [hx]
      have hb2 : (x == e.1) = false := by
        rw [he]
        exact hb
      simp only [hb, hb2]
      exact ih
    · simp only [setState, List.map_cons, if_neg he]
      rw [List.lookup_cons, List.lookup_cons]
      by_cases hxe : (x == e.1) = true
      · simp [hxe]
      · simp only [Bool.not_eq_true] at hxe
        simp only [hxe]
        exact ih

lemma lookup_mem_keys (cs : List (Nat × CState)) (p : Nat) (v : CState)
    (h : cs.lookup p = some v) : p ∈ cs.map Prod.fst := by
  induction cs with
  | nil => simp [List.lookup] at h
  | cons e rest ih =>
    obtain ⟨k, w⟩ := e
    rw [List.lookup_cons] at h
    simp only [List.map_cons, List.mem_cons]
    by_cases hb : (p == k) = true
    · exact Or.inl (Nat.eq_of_beq_eq_true (by simpa using hb))
    · simp only [Bool.not_eq_true] at hb
      simp only [hb, Bool.false_eq_true, if_false] at h
      exact Or.inr (ih h)

lemma lookup_of_mem_nodup :
    ∀ (cs : List (Nat × CState)) (p : Nat) (v : CState),
    (cs.map Prod.fst).Nodup → (p, v) ∈ cs → cs.lookup p = some v := by
  intro cs
  induction cs with
  | nil =>
    intro p v _ hmem
    simp at hmem
  | cons e rest ih =>
    intro p v hnd hmem
    obtain ⟨k, w⟩ := e
    simp only [List.map_cons, List.nodup_cons] at hnd
    rw [List.lookup_cons]
    rcases List.mem_cons.mp hmem with heq | hmem2
    · have h1 : p = k := congrArg Prod.fst heq
      have h2 : v = w := congrArg Prod.snd heq
      subst h1
      subst h2
      simp
    · have hp : p ∈ rest.map Prod.fst := List.mem_map_of_mem Prod.fst hmem2
      have hne : p ≠ k := fun hh => hnd.1 (hh ▸ hp)
      have hb : (p == k) = false := by simp [hne]
      simp only [hb, Bool.false_eq_true, if_false]
      exact ih p v hnd.2 hmem2

lemma runningCount_le_one_of (cs : List (Nat × CState)) (c : Option Nat)
    (hnd : (cs.map Prod.fst).Nodup)
    (hrun : ∀ p, cs.lookup p = some CState.running → c = some p) :
    cs.countP (fun e => e.2 == CState.running) ≤ 1 := by
  induction cs with
  | nil => simp
  | cons e rest ih =>
    obtain ⟨k, w⟩ := e
    simp only [List.map_cons, List.nodup_cons] at hnd
    rw [List.countP_cons]
    by_cases hw : w = CState.running
    · have hlk : ((k, w) :: rest).lookup k = some w := by
        rw [List.lookup_cons]
        simp
      have hc : c = some k := hrun k (by rw [hlk, hw])
      have hz : rest.countP (fun e => e.2 == CState.running) = 0 := by
        rw [List.countP_eq_zero]
        intro a ha hx
        obtain ⟨ap, av⟩ := a
        have hav : av = CState.running := by simpa using hx
        subst hav
        have hpmem : ap ∈ rest.map Prod.fst := List.mem_map_of_mem Prod.fst ha
        have hne : ap ≠ k := fun hh => hnd.1 (hh ▸ hpmem)
        have hlap : ((k, w) :: rest).lookup ap = some CState.running := by
          rw [List.lookup_cons]
          have hb : (ap == k) = false := by simp [hne]
          simp only [hb, Bool.false_eq_true, if_false]
          exact lookup_of_mem_nodup rest ap CState.running hnd.2 ha
        have hck := hrun ap hlap
        rw [hc] at hck
        have : k = ap := by injection hck
        exact hne this.symm
      rw [hz]
      simp [hw]
    · have hb : (w == CState.running) = false := by simp [hw]
      have hrun2 : ∀ p, rest.lookup p = some CState.running → c = some p := by
        intro p hp
        apply hrun
        rw [List.lookup_cons]
        have hpmem : p ∈ rest.map Prod.fst := lookup_mem_keys rest p _ hp
        have hne : p ≠ k := fun hh => hnd.1 (hh ▸ hpmem)
        have hbp : (p == k) = false := by simp [hne]
        simp only [hbp, Bool.false_eq_true, if_false]
        exact hp
      have hrest := ih hnd.2 hrun2
      simp only [hb, Bool.false_eq_true, if_false]
      omega

lemma lookup_init (pids : List Nat) (p : Nat) :
    (pids.map (fun x => (x, CState.stopped))).lookup p
      = (if p ∈ pids then some CState.stopped else none) := by
  induction pids with
  | nil => simp [List.lookup]
  | cons a rest ih =>
    rw [List.map_cons, List.lookup_cons]
    by_cases hpa : p = a
    · subst hpa
      simp
    · have hb : (p == a) = false := by simp [hpa]
      simp only [hb, Bool.false_eq_true, if_false, ih, List.mem_cons]
      simp [hpa]

lemma sysInv_init (pids : List Nat) (hnd : pids.Nodup) :
    SysInv (initSys pids) := by
  have hkeys : ((initSys pids).cs.map Prod.fst) = pids := by
    simp only [initSys, List.map_map]
    exact List.map_id pids
  refine ⟨by rw [hkeys]; exact hnd, ?_, ?_⟩
  · intro p
    show pids.count p = _
    rw [show (initSys pids).cs = pids.map (fun x => (x, CState.stopped)) from rfl,
      lookup_init]
    by_cases hp : p ∈ pids
    · rw [if_pos hp, if_pos rfl]
      exact List.count_eq_one_of_mem hnd hp
    · rw [if_neg hp, if_neg (by simp)]
      exact List.count_eq_zero_of_not_mem hp
  · intro p hp
    rw [show (initSys pids).cs = pids.map (fun x => (x, CState.stopped)) from rfl,
      lookup_init] at hp
    by_cases h : p ∈ pids
    · rw [if_pos h] at hp
      simp at hp
    · rw [if_neg h] at hp
      simp at hp

lemma sysInv_step (s s' : Sys) (hs : SchedStep s s') (h : SysInv s) :
    SysInv s' := by
  obtain ⟨hnd, hcnt, hrun⟩ := h
  cases hs with
  | dispatch p rest cs =>
    have hcnt2 : ∀ y, (p :: rest).count y
        = (if cs.lookup y = some CState.stopped then 1 else 0) :=
      fun y => hcnt y
    refine ⟨by rw [setState_keys]; exact hnd, ?_, ?_⟩
    · intro x
      show rest.count x = _
      by_cases hxp : x = p
      · subst hxp
        have hx := hcnt2 x
        have hge : 1 ≤ (x :: rest).count x := by
          simp [List.count_cons]
        have hst : cs.lookup x = some CState.stopped := by
          by_contra hcon
          rw [if_neg hcon] at hx
          omega
        rw [if_pos hst] at hx
        have hsucc : (x :: rest).count x = rest.count x + 1 := by
          simp [List.count_cons]
        rw [lookup_setState_self, hst]
        simp only [Option.map_some']
        rw [if_neg (by simp)]
        omega
      · rw [lookup_setState_ne cs p x _ hxp]
        have hx := hcnt2 x
        have heq : (p :: rest).count x = rest.count x := by
          simp [List.count_cons, hxp]
        rw [← heq]
        exact hx
    · intro x hx
      by_cases hxp : x = p
      · subst hxp
        rfl
      · rw [lookup_setState_ne cs p x _ hxp] at hx
        have hcon : (none : Option Nat) = some x := hrun x hx
        exact absurd hcon (by simp)
  | childExit qq p cs hlk =>
    refine ⟨by rw [setState_keys]; exact hnd, ?_, ?_⟩
    · intro x
      show qq.count x = _
      by_cases hxp : x = p
      · subst hxp
        rw [lookup_setState_self, hlk]
        have hx : qq.count x
            = (if cs.lookup x = some CState.stopped then 1 else 0) := hcnt x
        rw [hlk, if_neg (by simp)] at hx
        simp only [Option.map_some']
        rw [if_neg (by simp)]
        exact hx
      · rw [lookup_setState_ne cs p x _ hxp]
        exact hcnt x
    · intro x hx
      by_cases hxp : x = p
      · subst hxp
        rfl
      · rw [lookup_setState_ne cs p x _ hxp] at hx
        exact hrun x hx
  | preempt qq p cs hlk =>
    refine ⟨by rw [setState_keys]; exact hnd, ?_, ?_⟩
    · intro x
      show (qq ++ [p]).count x = _
      by_cases hxp : x = p
      · subst hxp
        rw [lookup_setState_self, hlk]
        have hx : qq.count x
            = (if cs.lookup x = some CState.stopped then 1 else 0) := hcnt x
        rw [hlk, if_neg (by simp)] at hx
        simp [List.count_append, hx, List.count_cons]
      · rw [lookup_setState_ne cs p x _ hxp]
        rw [List.count_append]
        have hz : ([p] : List Nat).count x = 0 := by
          simp [List.count_cons, hxp]
        rw [hz, Nat.add_zero]
        exact hcnt x
    · intro x hx
      exfalso
      by_cases hxp : x = p
      · subst hxp
        rw [lookup_setState_self, hlk] at hx
        simp at hx
      · rw [lookup_setState_ne cs p x _ hxp] at hx
        have hcon : (some p : Option Nat) = some x := hrun x hx
        have hpx : p = x := by injection hcon
        exact hxp hpx.symm
  | finalizeStep qq p cs hlk =>
    refine ⟨hnd, hcnt, ?_⟩
    intro x hx
    exfalso
    have hcon : (some p : Option Nat) = some x := hrun x hx
    have hpx : p = x := by injection hcon
    subst hpx
    rw [hlk] at hx
    simp at hx

lemma sysInv_reachable (pids : List Nat) (s : Sys) (hnd : pids.Nodup)
    (h : SchedReachable pids s) : SysInv s := by
  induction h with
  | refl => exact sysInv_init pids hnd
  | tail hsteps hstep ih => exact sysInv_step _ _ hstep ih

/-- Claim C8: in every state reachable by the dispatch loop from distinct
launched pids, at most one child is resumed-and-not-yet-stopped-or-dead
(at most one PCB `RUNNING`), and every stopped (READY) PCB sits in the
ReadyQueue exactly once. -/
theorem at_most_one_running (pids : List Nat) (s : Sys) (p : Nat)
    (hnd : pids.Nodup) (hr : SchedReachable pids s) :
    runningCount s ≤ 1 ∧
    (s.cs.lookup p = some CState.stopped → s.queue.count p = 1) := by
  have hinv := sysInv_reachable pids s hnd hr
  obtain ⟨h1, h2, h3⟩ := hinv
  constructor
  · exact runningCount_le_one_of s.cs s.cur h1 h3
  · intro hp
    have hq := h2 p
    rw [if_pos hp] at hq
    exact hq

/-- Witness for C8 at the post-launch state of a two-process run. -/
theorem at_most_one_running_witness :
    runningCount (initSys [1, 2]) ≤ 1 ∧ (initSys [1, 2]).queue.count 1 = 1 := by
  have h := at_most_one_running [1, 2] (initSys [1, 2]) 1 (by decide)
    Relation.ReflTransGen.refl
  exact ⟨h.1, h.2 (by rfl)⟩

/-! ## Claims about configuration, the timer, accounting, and the wait loop -/

/-- Claim C1: quantum resolution precedence — a non-negative `-q` override
wins regardless of the environment fallback; with no override a
non-negative `USPS_QUANTUM_MSEC` value is used; with neither, the run
fails with a configuration error before any process is launched (the
error result of `uspsMain` carries no launched command). -/
theorem quantum_resolution_precedence (v e : Int) (envAny : Option Int)
    (cmds : List (List String)) (hv : 0 ≤ v) (he : 0 ≤ e) :
    resolveQuantum (some v) envAny = Except.ok v ∧
    resolveQuantum none (some e) = Except.ok e ∧
    uspsMain none none cmds
      = Except.error "Error: No environment variable set or passed" := by
  refine ⟨?_, ?_, rfl⟩
  · cases envAny with
    | none => simp [resolveQuantum, not_lt.mpr hv]
    | some e2 => simp [resolveQuantum, not_lt.mpr hv]
  · simp [resolveQuantum, not_lt.mpr he]

/-- Witness for C1: override 500 beats fallback 200; fallback 200 alone is
used; neither value is a fatal error. -/
theorem quantum_resolution_precedence_witness :
    resolveQuantum (some 500) (some 200) = Except.ok 500 ∧
    resolveQuantum none (some 200) = Except.ok 200 ∧
    uspsMain none none [["ls"]]
      = Except.error "Error: No environment variable set or passed" :=
  quantum_resolution_precedence 500 200 (some 200) [["ls"]]
    (by decide) (by decide)

/-- Counterexample to claim C2: a quantum of exactly 0 is accepted by the
configuration check (`QUANT_SECONDS < 0` only rejects negatives), so the
run proceeds to launch processes with quantum 0 instead of failing. -/
theorem quantum_zero_accepted :
    resolveQuantum (some 0) none = Except.ok 0 ∧
    uspsMain (some 0) none [["ls"]] = Except.ok (0, [["ls"]]) := by
  constructor
  · rfl
  · rfl

/-- Claim C2 amended: only a strictly negative quantum — from the override
when supplied, from the fallback when that is the source — is a fatal
configuration error with non-zero exit status before any process is
launched; quantum 0 passes the check. -/
theorem negative_quantum_fatal (override env : Option Int)
    (cmds : List (List String))
    (h1 : override.getD (-1) < 0) (h2 : env.getD (-1) < 0) :
    isFatal (uspsMain override env cmds) = true := by
  cases env with
  | none =>
    simp [uspsMain, resolveQuantum, h1, isFatal]
  | some e =>
    have he : e < 0 := by simpa using h2
    simp [uspsMain, resolveQuantum, h1, he, isFatal]

/-- Witness for the amended C2 at override -3 and no fallback. -/
theorem negative_quantum_fatal_witness :
    isFatal (uspsMain (some (-3)) none [["ls"]]) = true :=
  negative_quantum_fatal (some (-3)) none [["ls"]] (by decide) (by decide)

/-- Claim C4 (code bug): at quantum 1000 ms the computed itimerval is
`tv_sec = 1, tv_usec = 1000000` — 2,000,000 µs in total instead of the
claimed 1,000,000 µs, with an out-of-range `tv_usec` (POSIX requires
`tv_usec < 1000000`, so `setitimer` rejects the value). The bug:
line 126 computes `tv_usec = QUANT_SECONDS * 1000` instead of
`(QUANT_SECONDS % 1000) * 1000`, double-counting the whole seconds
already placed in `tv_sec`. -/
theorem timer_setup_wrong_at_1000 :
    timerSetup 1000 = (1, 1000000) ∧
    timerMicros (timerSetup 1000) = 2000000 ∧
    ¬(timerMicros (timerSetup 1000) = 1000 * 1000 ∧
      (timerSetup 1000).2 < 1000000) := by
  decide

/-- Counterexample to claim C5: with quantum 500 ms, the preempted PCB's
`totalCPUTime` is incremented by `500 / 1000 = 0`, not by the quantum. -/
theorem preempt_increment_not_quantum :
    (preemptChildV3 500 ⟨7, 0, false, false⟩).totalCPUTime = 0 ∧
    (preemptChildV3 500 ⟨7, 0, false, false⟩).totalCPUTime ≠ 0 + 500 := by
  decide

/-- Claim C5 amended: on preemption (child not exited) the v3 scheduler
increments `totalCPUTime` by `quantum / 1000` (integer division — whole
seconds only, zero for quantum < 1000 ms), leaves `pid` and `finished`
unchanged, and re-enqueues the PCB at the back; `totalCPUTime` never
decreases. The v4 scheduler re-enqueues the PCB completely unchanged
(no time accounting at all), and neither version re-enqueues an exited
PCB. -/
theorem preempt_charges_truncated_seconds (q : Nat) (c : ChildProcess)
    (queue : List ChildProcess) :
    reapStepV3 q c false queue = queue ++ [preemptChildV3 q c] ∧
    (preemptChildV3 q c).totalCPUTime = c.totalCPUTime + q / 1000 ∧
    c.totalCPUTime ≤ (preemptChildV3 q c).totalCPUTime ∧
    (preemptChildV3 q c).finished = c.finished ∧
    (preemptChildV3 q c).pid = c.pid ∧
    reapStepV4 c false queue = queue ++ [c] ∧
    reapStepV3 q c true queue = queue ∧
    reapStepV4 c true queue = queue :=
  ⟨rfl, rfl, Nat.le_add_right _ _, rfl, rfl, rfl, rfl, rfl⟩

/-- Counterexample to claim C9: the v3 wait loop is not a single blocking
wait — when the flags stay set for two checks it sleeps twice and checks
the condition three times (sleep-and-recheck polling). -/
theorem wait_loop_repolls :
    pollChecks [true, true, false] = 3 ∧
    pollSleeps [true, true, false] = 2 ∧
    ¬ pollChecks [true, true, false] ≤ 1 := by
  decide

lemma pollSleeps_replicate_true (k : Nat) :
    pollSleeps (List.replicate k true ++ [false]) = k := by
  induction k with
  | zero => rfl
  | succ k ih => simp [List.replicate_succ, pollSleeps, ih]

/-- Claim C9 amended: while waiting out a quantum the v3 scheduler polls —
it re-checks `childRunning && timeLeft` once per second, sleeping between
checks, until a signal handler clears one flag: a schedule with the flags
set for `k` checks costs `k` sleeps and `k + 1` checks. The wake set is
nevertheless the intended one: either handler (`alarm_handler` on quantum
expiry, `sigchld_handler` on child exit) falsifies the loop condition. -/
theorem wait_loop_sleep_and_recheck (k : Nat) (f : SchedFlags) :
    pollSleeps (List.replicate k true ++ [false]) = k ∧
    pollChecks (List.replicate k true ++ [false]) = k + 1 ∧
    waitCond (alarm_handler f) = false ∧
    waitCond (sigchldClear f) = false := by
  refine ⟨pollSleeps_replicate_true k, ?_, ?_, ?_⟩
  · rw [pollChecks, pollSleeps_replicate_true k]
  · simp [waitCond, alarm_handler]
  · simp [waitCond, sigchldClear]
